import Mathlib

/-!
Verification development for the ETS2 Twitch mod bot's mod/DLC discovery and
decoding subsystem.  Python sources are shallowly embedded as Lean functions:
file contents become explicit values (`List Nat` for bytes, `String` /
`List Char` for text), filesystem and network effects become explicit state
or function parameters, and fallible operations return `Option`.
-/

namespace Ets2Bot

/-! ## Python string primitives

Helpers modelling the exact Python string operations used by the sources:
`str.isspace` / `str.strip`, `int(...)` parsing, and `str.splitlines`.
-/

/-- Model of Python `str.isspace` for a single character (the character set
stripped by `str.strip()` and matched by the whitespace checks in the code):
ASCII whitespace, the C1/Unicode whitespace code points, and the Unicode
space separators. -/
def pyIsSpace (c : Char) : Bool :=
  decide (c.val = 0x09 ∨ c.val = 0x0A ∨ c.val = 0x0B ∨ c.val = 0x0C ∨ c.val = 0x0D ∨
    c.val = 0x1C ∨ c.val = 0x1D ∨ c.val = 0x1E ∨ c.val = 0x1F ∨ c.val = 0x20 ∨
    c.val = 0x85 ∨ c.val = 0xA0 ∨ c.val = 0x1680 ∨
    (0x2000 ≤ c.val ∧ c.val ≤ 0x200A) ∨
    c.val = 0x2028 ∨ c.val = 0x2029 ∨ c.val = 0x202F ∨ c.val = 0x205F ∨ c.val = 0x3000)

/-- Model of Python `str.strip()` (no argument): remove leading and trailing
whitespace characters. -/
def pyStrip (cs : List Char) : List Char :=
  ((cs.dropWhile pyIsSpace).reverse.dropWhile pyIsSpace).reverse

/-- Numeric value of a list of ASCII decimal digits (most significant first). -/
def digitsToNat (cs : List Char) : Nat :=
  cs.foldl (fun n c => n * 10 + (c.toNat - 48)) 0

/-- Tail of a Python integer-literal digit run: after a digit, either the run
ends, or an underscore followed by a digit continues it, or a digit continues
it.  (Python `int()` accepts single underscores between digits.) -/
def pyDigitRunTail : List Char → Bool
  | [] => true
  | '_' :: rest =>
    match rest with
    | d :: rest2 => d.isDigit && pyDigitRunTail rest2
    | [] => false
  | d :: rest => d.isDigit && pyDigitRunTail rest

/-- A valid Python `int()` digit sequence: one leading digit, then digits with
optional single underscores between them. -/
def pyValidDigits : List Char → Bool
  | [] => false
  | d :: rest => d.isDigit && pyDigitRunTail rest

/-- Model of Python `int(s)` on a string (ASCII decimal digits): strip
whitespace, allow one optional sign, then a digit run with optional single
underscores between digits; any other shape raises `ValueError`, modelled as
`none`. -/
def pyParseInt (cs : List Char) : Option Int :=
  let s := pyStrip cs
  match s with
  | [] => none
  | c :: rest =>
    let signed : Bool × List Char :=
      if c = '-' then (true, rest) else if c = '+' then (false, rest) else (false, s)
    let ds := signed.2
    if pyValidDigits ds then
      let n : Int := (digitsToNat (ds.filter (fun c => c ≠ '_')) : Int)
      some (if signed.1 then -n else n)
    else none

/-- The line-boundary characters recognised by Python `str.splitlines`. -/
def pyIsLineBreak (c : Char) : Bool :=
  decide (c.val = 0x0A ∨ c.val = 0x0D ∨ c.val = 0x0B ∨ c.val = 0x0C ∨
    c.val = 0x1C ∨ c.val = 0x1D ∨ c.val = 0x1E ∨ c.val = 0x85 ∨
    c.val = 0x2028 ∨ c.val = 0x2029)

/-- Model of Python `str.splitlines()`: split at line-boundary characters,
treating `"\r\n"` as a single boundary, and not producing a trailing empty
line for a trailing boundary. -/
def pySplitlines : List Char → List (List Char)
  | [] => []
  | '\r' :: '\n' :: rest => [] :: pySplitlines rest
  | c :: rest =>
    if pyIsLineBreak c then [] :: pySplitlines rest
    else
      match pySplitlines rest with
      | [] => [[c]]
      | l :: ls => (c :: l) :: ls

/-! ## UTF-8 decoding with `errors="ignore"`

All text decoding in the sources uses `bytes.decode("utf-8", errors="ignore")`:
invalid byte sequences are dropped (not replaced).  The decoder below follows
the UTF-8 acceptance ranges used by CPython (maximal-subpart error skipping:
on an invalid or truncated sequence, the bytes consumed so far are skipped and
decoding resumes at the offending byte).
-/

/-- Is `b` a UTF-8 continuation byte? -/
def isUtf8Cont (b : Nat) : Bool := decide (0x80 ≤ b ∧ b ≤ 0xBF)

/-- Valid range of the first continuation byte of a three-byte sequence
(restricted for `0xE0` to exclude overlong forms and for `0xED` to exclude
surrogates). -/
def utf8Cont3Ok (b0 b1 : Nat) : Bool :=
  if b0 = 0xE0 then decide (0xA0 ≤ b1 ∧ b1 ≤ 0xBF)
  else if b0 = 0xED then decide (0x80 ≤ b1 ∧ b1 ≤ 0x9F)
  else isUtf8Cont b1

/-- Valid range of the first continuation byte of a four-byte sequence
(restricted for `0xF0` to exclude overlong forms and for `0xF4` to stay below
`U+110000`). -/
def utf8Cont4Ok (b0 b1 : Nat) : Bool :=
  if b0 = 0xF0 then decide (0x90 ≤ b1 ∧ b1 ≤ 0xBF)
  else if b0 = 0xF4 then decide (0x80 ≤ b1 ∧ b1 ≤ 0x8F)
  else isUtf8Cont b1

/-- Fuelled worker for `utf8DecodeIgnore` (structural recursion on the fuel so
that the definition computes by kernel reduction).  Every step consumes at
least one byte, so fuel equal to the length of the input is always enough;
`utf8DecodeIgnoreAux_fuel` below proves the fuel is irrelevant beyond that. -/
def utf8DecodeIgnoreAux : Nat → List Nat → List Char
  | 0, _ => []
  | _, [] => []
  | fuel + 1, b0 :: rest =>
    if b0 < 0x80 then
      Char.ofNat b0 :: utf8DecodeIgnoreAux fuel rest
    else if 0xC2 ≤ b0 ∧ b0 ≤ 0xDF then
      match rest with
      | [] => []
      | b1 :: rest1 =>
        if isUtf8Cont b1 then
          Char.ofNat ((b0 % 0x20) * 0x40 + b1 % 0x40) :: utf8DecodeIgnoreAux fuel rest1
        else utf8DecodeIgnoreAux fuel rest
    else if 0xE0 ≤ b0 ∧ b0 ≤ 0xEF then
      match rest with
      | [] => []
      | b1 :: rest1 =>
        if utf8Cont3Ok b0 b1 then
          match rest1 with
          | [] => []
          | b2 :: rest2 =>
            if isUtf8Cont b2 then
              Char.ofNat ((b0 % 0x10) * 0x1000 + (b1 % 0x40) * 0x40 + b2 % 0x40)
                :: utf8DecodeIgnoreAux fuel rest2
            else utf8DecodeIgnoreAux fuel rest1
        else utf8DecodeIgnoreAux fuel rest
    else if 0xF0 ≤ b0 ∧ b0 ≤ 0xF4 then
      match rest with
      | [] => []
      | b1 :: rest1 =>
        if utf8Cont4Ok b0 b1 then
          match rest1 with
          | [] => []
          | b2 :: rest2 =>
            if isUtf8Cont b2 then
              match rest2 with
              | [] => []
              | b3 :: rest3 =>
                if isUtf8Cont b3 then
                  Char.ofNat ((b0 % 0x08) * 0x40000 + (b1 % 0x40) * 0x1000 +
                      (b2 % 0x40) * 0x40 + b3 % 0x40)
                    :: utf8DecodeIgnoreAux fuel rest3
                else utf8DecodeIgnoreAux fuel rest2
            else utf8DecodeIgnoreAux fuel rest1
        else utf8DecodeIgnoreAux fuel rest
    else
      utf8DecodeIgnoreAux fuel rest

/-- Model of Python `bytes.decode("utf-8", errors="ignore")`: decode valid
sequences, silently skip invalid ones. -/
def utf8DecodeIgnore (bs : List Nat) : List Char :=
  utf8DecodeIgnoreAux bs.length bs

/-- Decode bytes to a `String` the way the sources do
(`.decode("utf-8", errors="ignore")`). -/
def utf8DecodeIgnoreStr (bs : List Nat) : String := String.mk (utf8DecodeIgnore bs)

/-- The fuel of `utf8DecodeIgnoreAux` is irrelevant as soon as it reaches the
length of the input: every decoding step consumes at least one byte. -/
theorem utf8DecodeIgnoreAux_fuel (n : Nat) : ∀ (fuel : Nat) (bs : List Nat),
    bs.length ≤ fuel → fuel ≤ n → utf8DecodeIgnoreAux fuel bs = utf8DecodeIgnore bs := by
  induction n with
  | zero =>
    intro fuel bs h1 h2
    interval_cases fuel
    have : bs = [] := List.length_eq_zero.mp (Nat.le_zero.mp h1)
    subst this
    rfl
  | succ n ih =>
    intro fuel bs h1 h2
    cases fuel with
    | zero =>
      have : bs = [] := List.length_eq_zero.mp (Nat.le_zero.mp h1)
      subst this
      rfl
    | succ fuel =>
    cases bs with
    | nil => rfl
    | cons b0 rest =>
      have hrest : rest.length ≤ fuel := by simpa using h1
      have hfn : fuel ≤ n := by omega
      have hrn : rest.length ≤ n := le_trans hrest hfn
      show utf8DecodeIgnoreAux (fuel + 1) (b0 :: rest) =
        utf8DecodeIgnoreAux (rest.length + 1) (b0 :: rest)
      simp only [utf8DecodeIgnoreAux]
      repeat' split
      all_goals try rfl
      all_goals
        rw [ih fuel _ (by (try simp only [List.length_cons] at hrest ⊢); omega) hfn,
          ih _ _ (by (try simp only [List.length_cons]); omega) hrn]

/-! ## `decrypt.py` — `SIIDecryptor`

Model of `src/decrypt.py` (the `HAS_CRYPTO = True` path: `pycryptodome`
available, which is also guaranteed by the import block of `src/bot.py`).
The AES-CBC block cipher and the zlib decompressor are external libraries;
they enter the model as an explicit environment.  The bytes of the opened
file are the `data` argument.
-/

/-- External cryptography/compression environment.
`aesDecrypt iv payload` is `AES.new(SII_KEY, AES.MODE_CBC, iv).decrypt(payload)`
(only called on payloads whose length is a multiple of the AES block size);
`zlibDecompress` is `zlib.decompress`, with `none` modelling `zlib.error`. -/
structure CryptoEnv where
  aesDecrypt : List Nat → List Nat → List Nat
  zlibDecompress : List Nat → Option (List Nat)

/-- `"ScsC"`: encrypted-header signature (little-endian). -/
def SII_SIGNATURE_ENCRYPTED : Nat := 0x43736353

/-- `"SiiN"`: normal/plaintext signature (little-endian). -/
def SII_SIGNATURE_NORMAL : Nat := 0x4E696953

/-- `struct.unpack("<I", data[:4])[0]`: the first four bytes read as a
little-endian 32-bit integer. -/
def leU32 (data : List Nat) : Nat :=
  data.getD 0 0 + 0x100 * data.getD 1 0 + 0x10000 * data.getD 2 0 +
    0x1000000 * data.getD 3 0

namespace SIIDecryptor

/-- Model of `SIIDecryptor._decrypt_encrypted` (named `decrypt_encrypted` here;
Lean reserves leading underscores).  Header is 4 (signature) + 32 (HMAC,
ignored) + 16 (IV) + 4 (data size, ignored) = 56 bytes; shorter input fails.
The payload is AES-CBC decrypted (a payload that is not a multiple of the
block size makes `cipher.decrypt` raise, caught by the surrounding handler and
returned as `None`), then zlib-decompressed if possible, and decoded as UTF-8
with invalid sequences ignored. -/
def decrypt_encrypted (env : CryptoEnv) (data : List Nat) : Option String :=
  if data.length < 56 then none
  else
    let iv := (data.drop 36).take 16
    let encrypted_payload := data.drop 56
    if encrypted_payload.length % 16 ≠ 0 then none
    else
      let decrypted := env.aesDecrypt iv encrypted_payload
      match env.zlibDecompress decrypted with
      | some decompressed => some (utf8DecodeIgnoreStr decompressed)
      | none => some (utf8DecodeIgnoreStr decrypted)

/-- Model of `SIIDecryptor.decrypt_file` on the bytes `data` of the file
(crypto available): fewer than 4 bytes fails; a plaintext signature returns
the whole byte string decoded as UTF-8 (`data.decode`, including the
signature bytes themselves); an encrypted signature goes through
`decrypt_encrypted`; any other signature fails. -/
def decrypt_file (env : CryptoEnv) (data : List Nat) : Option String :=
  if data.length < 4 then none
  else
    let signature := leU32 data
    if signature = SII_SIGNATURE_NORMAL then
      some (utf8DecodeIgnoreStr data)
    else if signature = SII_SIGNATURE_ENCRYPTED then
      decrypt_encrypted env data
    else
      none

end SIIDecryptor

/-- The four bytes of the plaintext signature, in file order. -/
theorem leU32_normal_bytes (b0 b1 b2 b3 : Nat) (rest : List Nat)
    (hb : ∀ b ∈ b0 :: b1 :: b2 :: b3 :: rest, b < 256)
    (hsig : leU32 (b0 :: b1 :: b2 :: b3 :: rest) = SII_SIGNATURE_NORMAL) :
    b0 = 0x53 ∧ b1 = 0x69 ∧ b2 = 0x69 ∧ b3 = 0x4E := by
  have h0 := hb b0 (by simp)
  have h1 := hb b1 (by simp)
  have h2 := hb b2 (by simp)
  have h3 := hb b3 (by simp)
  simp only [leU32, List.getD_cons_succ, List.getD_cons_zero, SII_SIGNATURE_NORMAL] at hsig
  omega

/-- Amended C2: on a plaintext-signature input, `decrypt_file` decodes the
*whole* byte string, so the result is the decoded four signature bytes
`"SiiN"` followed by the UTF-8 decoding (invalid sequences dropped) of the
bytes after the signature. -/
theorem decrypt_file_plaintext (env : CryptoEnv) (data : List Nat)
    (hb : ∀ b ∈ data, b < 256) (hlen : 4 ≤ data.length)
    (hsig : leU32 data = SII_SIGNATURE_NORMAL) :
    SIIDecryptor.decrypt_file env data =
      some (String.mk ('S' :: 'i' :: 'i' :: 'N' :: utf8DecodeIgnore (data.drop 4))) := by
  match data, hlen with
  | b0 :: b1 :: b2 :: b3 :: rest, _ =>
    obtain ⟨rfl, rfl, rfl, rfl⟩ := leU32_normal_bytes b0 b1 b2 b3 rest hb hsig
    have hlt : ¬ (0x53 :: 0x69 :: 0x69 :: 0x4E :: rest).length < 4 := by
      simp
    rw [SIIDecryptor.decrypt_file, if_neg hlt, if_pos hsig]
    simp only [utf8DecodeIgnoreStr, utf8DecodeIgnore, List.length_cons, List.drop_succ_cons,
      List.drop_zero]
    norm_num [utf8DecodeIgnoreAux]

/-- C2 counterexample: on the plaintext-signature input
`"SiiN" ++ "abc"` (bytes `53 69 69 4E 61 62 63`), `decrypt_file` returns
`"SiiNabc"`, not the UTF-8 decoding `"abc"` of the bytes following the
signature: the four signature bytes are included in the returned text. -/
theorem decrypt_file_plaintext_includes_signature :
    SIIDecryptor.decrypt_file ⟨fun _ p => p, fun _ => none⟩
        [0x53, 0x69, 0x69, 0x4E, 0x61, 0x62, 0x63] = some "SiiNabc" ∧
    utf8DecodeIgnoreStr ([0x53, 0x69, 0x69, 0x4E, 0x61, 0x62, 0x63].drop 4) = "abc" ∧
    SIIDecryptor.decrypt_file ⟨fun _ p => p, fun _ => none⟩
        [0x53, 0x69, 0x69, 0x4E, 0x61, 0x62, 0x63] ≠
      some (utf8DecodeIgnoreStr ([0x53, 0x69, 0x69, 0x4E, 0x61, 0x62, 0x63].drop 4)) := by
  refine ⟨by decide, by decide, by decide⟩

/-- C2 witness: the amended statement evaluated on the concrete input
`"SiiN" ++ "abc"`. -/
theorem decrypt_file_plaintext_witness :
    SIIDecryptor.decrypt_file ⟨fun _ p => p, fun d => some d⟩
        [0x53, 0x69, 0x69, 0x4E, 0x61, 0x62, 0x63] =
      some (String.mk ('S' :: 'i' :: 'i' :: 'N' ::
        utf8DecodeIgnore ([0x53, 0x69, 0x69, 0x4E, 0x61, 0x62, 0x63].drop 4))) :=
  decrypt_file_plaintext ⟨fun _ p => p, fun d => some d⟩
    [0x53, 0x69, 0x69, 0x4E, 0x61, 0x62, 0x63] (by decide) (by decide) (by decide)

/-- C5: an encrypted-signature input shorter than the 56-byte header makes
`decrypt_file` return `none`, for every crypto environment. -/
theorem decrypt_file_encrypted_short (env : CryptoEnv) (data : List Nat)
    (hlen : 4 ≤ data.length) (hsig : leU32 data = SII_SIGNATURE_ENCRYPTED)
    (hshort : data.length < 56) :
    SIIDecryptor.decrypt_file env data = none := by
  have hlt : ¬ data.length < 4 := by omega
  have hne : leU32 data ≠ SII_SIGNATURE_NORMAL := by
    rw [hsig]
    decide
  rw [SIIDecryptor.decrypt_file, if_neg hlt, if_neg hne, if_pos hsig,
    SIIDecryptor.decrypt_encrypted, if_pos hshort]

/-- C5 witness: the bytes `"ScsC"` alone (length 4 < 56) decode to `none`. -/
theorem decrypt_file_encrypted_short_witness :
    SIIDecryptor.decrypt_file ⟨fun _ p => p, fun _ => none⟩
        [0x53, 0x63, 0x73, 0x43] = none :=
  decrypt_file_encrypted_short ⟨fun _ p => p, fun _ => none⟩
    [0x53, 0x63, 0x73, 0x43] (by decide) (by decide) (by decide)

/-! ## The `active_mods` entry pattern

Both `src/lib/parser.py` (`_ACTIVE_MODS_RE`) and `src/bot.py`
(`parse_profile_for_mods`) scan the decoded profile text with the regex

  active_mods\[(\d+)\]:\s*"([^|]+)\|([^"]+)"   (IGNORECASE | MULTILINE)

via `re.findall` (leftmost, non-overlapping matches).  MULTILINE is inert
(the pattern has no anchors).  For this pattern the regex engine is
deterministic: every quantified piece is a maximal run of a character class
followed by a required character outside that class, so no backtracking can
succeed.  The scanner below reproduces exactly that behaviour.
-/

/-- Maximal prefix of characters satisfying `p`, with the remainder. -/
def takeRun (p : Char → Bool) : List Char → List Char × List Char
  | [] => ([], [])
  | c :: cs =>
    if p c then
      let r := takeRun p cs
      (c :: r.1, r.2)
    else ([], c :: cs)

/-- Match a literal case-insensitively (re.IGNORECASE) at the head of the
input, returning the remainder on success. -/
def dropLitCI : List Char → List Char → Option (List Char)
  | [], cs => some cs
  | _ :: _, [] => none
  | p :: ps, c :: cs => if p.toLower = c.toLower then dropLitCI ps cs else none

/-- A regex match of the `active_mods` entry pattern: the three capture groups
(index digits, identifier before the first pipe, display text after it). -/
abbrev ActiveModsMatch : Type := List Char × List Char × List Char

/-- Try to match the `active_mods` entry pattern at the start of the input;
on success return the three capture groups and the remaining input.
In order: the literal `active_mods[` (case-insensitive), a non-empty maximal
digit run `(\d+)`, the literal `]:`, a maximal whitespace run `\s*`, a double
quote, a non-empty maximal run of non-pipe characters `([^|]+)`, a pipe, a
non-empty maximal run of non-quote characters `([^"]+)`, a closing quote. -/
def matchActiveModsAt (cs : List Char) : Option (ActiveModsMatch × List Char) :=
  match dropLitCI "active_mods[".data cs with
  | none => none
  | some r1 =>
    match takeRun Char.isDigit r1 with
    | ([], _) => none
    | (d0 :: ds, r2) =>
      match r2 with
      | ']' :: ':' :: r3 =>
        match (takeRun pyIsSpace r3).2 with
        | '"' :: r5 =>
          match takeRun (fun c => c ≠ '|') r5 with
          | ([], _) => none
          | (i0 :: is0, r6) =>
            match r6 with
            | '|' :: r7 =>
              match takeRun (fun c => c ≠ '"') r7 with
              | ([], _) => none
              | (n0 :: ns, r8) =>
                match r8 with
                | '"' :: r9 => some ((d0 :: ds, i0 :: is0, n0 :: ns), r9)
                | _ => none
            | _ => none
        | _ => none
      | _ => none

/-- `takeRun` only discards from the front: the remainder plus the run
recompose the input. -/
theorem takeRun_append (p : Char → Bool) (cs : List Char) :
    (takeRun p cs).1 ++ (takeRun p cs).2 = cs := by
  induction cs with
  | nil => rfl
  | cons c cs ih =>
    by_cases h : p c <;> simp [takeRun, h, ih]

/-- The remainder of `takeRun` is no longer than the input. -/
theorem takeRun_length_le (p : Char → Bool) (cs : List Char) :
    (takeRun p cs).2.length ≤ cs.length := by
  conv_rhs => rw [← takeRun_append p cs]
  simp

/-- Run and remainder of `takeRun` partition the input's length. -/
theorem takeRun_length (p : Char → Bool) (cs : List Char) :
    (takeRun p cs).1.length + (takeRun p cs).2.length = cs.length := by
  conv_rhs => rw [← takeRun_append p cs]
  simp

/-- `dropLitCI` consumes exactly the literal's length. -/
theorem dropLitCI_length (lit : List Char) : ∀ (cs r : List Char),
    dropLitCI lit cs = some r → r.length + lit.length = cs.length := by
  induction lit with
  | nil =>
    intro cs r h
    simp [dropLitCI] at h
    simp [h]
  | cons p ps ih =>
    intro cs r h
    cases cs with
    | nil => simp [dropLitCI] at h
    | cons c cs =>
      simp only [dropLitCI] at h
      split at h
      · have := ih cs r h
        simp only [List.length_cons]
        omega
      · exact absurd h (by simp)

/-- A successful match consumes at least one character (in fact at least the
12 characters of the fixed prefix), so the scan makes progress. -/
theorem matchActiveModsAt_shrinks (cs : List Char) (g : ActiveModsMatch)
    (rest : List Char) (h : matchActiveModsAt cs = some (g, rest)) :
    rest.length < cs.length := by
  unfold matchActiveModsAt at h
  split at h <;> try exact Option.noConfusion h
  rename_i r1 hlit
  have hr1 : r1.length + 12 = cs.length := dropLitCI_length _ cs r1 hlit
  split at h <;> try exact Option.noConfusion h
  rename_i d0 ds r2 heq2
  split at h <;> try exact Option.noConfusion h
  rename_i r3
  have hd := takeRun_length Char.isDigit r1
  rw [heq2] at hd
  have hw := takeRun_length_le pyIsSpace r3
  split at h <;> try exact Option.noConfusion h
  rename_i r5 heq5
  rw [heq5] at hw
  split at h <;> try exact Option.noConfusion h
  rename_i i0 is0 r6 heq6
  split at h <;> try exact Option.noConfusion h
  rename_i r7
  have hi := takeRun_length (fun c => c ≠ '|') r5
  rw [heq6] at hi
  split at h <;> try exact Option.noConfusion h
  rename_i n0 ns r8 heq8
  split at h <;> try exact Option.noConfusion h
  rename_i r9
  have hn := takeRun_length (fun c => c ≠ '"') r7
  rw [heq8] at hn
  injection h with h
  injection h with h1 h2
  subst h2
  simp only [List.length_cons] at hd hi hn hw ⊢
  omega

/-- Fuelled worker for `re.findall` over the `active_mods` pattern: at each
position try a match; on success record the groups and continue after the
match, otherwise advance one character. -/
def findActiveModsAux : Nat → List Char → List ActiveModsMatch
  | 0, _ => []
  | _, [] => []
  | fuel + 1, c :: cs =>
    match matchActiveModsAt (c :: cs) with
    | some gr => gr.1 :: findActiveModsAux fuel gr.2
    | none => findActiveModsAux fuel cs

/-- `re.findall(_ACTIVE_MODS_RE, content)`: all leftmost non-overlapping
matches of the `active_mods` entry pattern, in order of occurrence. -/
def findActiveMods (content : List Char) : List ActiveModsMatch :=
  findActiveModsAux content.length content

/-- The fuel of `findActiveModsAux` is irrelevant once it reaches the input
length: every scan step consumes at least one character. -/
theorem findActiveModsAux_fuel (n : Nat) : ∀ (fuel : Nat) (cs : List Char),
    cs.length ≤ fuel → fuel ≤ n → findActiveModsAux fuel cs = findActiveMods cs := by
  induction n with
  | zero =>
    intro fuel cs h1 h2
    interval_cases fuel
    have : cs = [] := List.length_eq_zero.mp (Nat.le_zero.mp h1)
    subst this
    rfl
  | succ n ih =>
    intro fuel cs h1 h2
    cases fuel with
    | zero =>
      have : cs = [] := List.length_eq_zero.mp (Nat.le_zero.mp h1)
      subst this
      rfl
    | succ fuel =>
    cases cs with
    | nil => rfl
    | cons c cs =>
      have hcs : cs.length ≤ fuel := by simpa using h1
      have hfn : fuel ≤ n := by omega
      show findActiveModsAux (fuel + 1) (c :: cs) =
        findActiveModsAux (cs.length + 1) (c :: cs)
      simp only [findActiveModsAux]
      split
      · rename_i gr heq
        have hlt : gr.2.length < cs.length + 1 := by
          simpa using matchActiveModsAt_shrinks _ gr.1 gr.2 (by rw [heq])
        rw [ih fuel gr.2 (by omega) hfn, ih cs.length gr.2 (by omega) (le_trans hcs hfn)]
      · rw [ih fuel cs hcs hfn, ih cs.length cs le_rfl (le_trans hcs hfn)]

/-! ## Sorting the matches

`sorted(matches, key=lambda x: int(x[0]), reverse=True)`: a stable sort,
descending by the numeric value of the index group.  A stable descending
sort is a unique function, so the stable insertion sort below computes the
same list as Python's timsort. -/

/-- The sort key: `int(x[0])`, the numeric value of the digits group. -/
def matchIdx (m : ActiveModsMatch) : Nat := digitsToNat m.1

/-- Insert into a descending-sorted list, before the first element with a
strictly smaller-or-equal key (keeping earlier elements first on ties). -/
def insertByIdxDesc (x : ActiveModsMatch) : List ActiveModsMatch → List ActiveModsMatch
  | [] => [x]
  | y :: ys =>
    if matchIdx x < matchIdx y then y :: insertByIdxDesc x ys
    else x :: y :: ys

/-- Stable sort, descending by numeric index. -/
def sortByIdxDesc : List ActiveModsMatch → List ActiveModsMatch
  | [] => []
  | x :: xs => insertByIdxDesc x (sortByIdxDesc xs)

theorem mem_insertByIdxDesc (a x : ActiveModsMatch) (l : List ActiveModsMatch) :
    a ∈ insertByIdxDesc x l ↔ a = x ∨ a ∈ l := by
  induction l with
  | nil => simp [insertByIdxDesc]
  | cons y ys ih =>
    by_cases h : matchIdx x < matchIdx y
    · simp [insertByIdxDesc, h, ih]
      tauto
    · simp [insertByIdxDesc, h]

theorem mem_sortByIdxDesc (a : ActiveModsMatch) (l : List ActiveModsMatch) :
    a ∈ sortByIdxDesc l ↔ a ∈ l := by
  induction l with
  | nil => simp [sortByIdxDesc]
  | cons x xs ih =>
    simp [sortByIdxDesc, mem_insertByIdxDesc, ih]

theorem pairwise_insertByIdxDesc (x : ActiveModsMatch) (l : List ActiveModsMatch)
    (h : l.Pairwise (fun a b => matchIdx b ≤ matchIdx a)) :
    (insertByIdxDesc x l).Pairwise (fun a b => matchIdx b ≤ matchIdx a) := by
  induction l with
  | nil => simp [insertByIdxDesc]
  | cons y ys ih =>
    rcases List.pairwise_cons.mp h with ⟨hy, hys⟩
    by_cases hc : matchIdx x < matchIdx y
    · rw [insertByIdxDesc, if_pos hc]
      refine List.pairwise_cons.mpr ⟨?_, ih hys⟩
      intro z hz
      rcases (mem_insertByIdxDesc z x ys).mp hz with rfl | hz
      · omega
      · exact hy z hz
    · rw [insertByIdxDesc, if_neg hc]
      refine List.pairwise_cons.mpr ⟨?_, h⟩
      intro z hz
      rcases hz with _ | hz
      · omega
      · have := hy z (by assumption)
        omega

theorem pairwise_sortByIdxDesc (l : List ActiveModsMatch) :
    (sortByIdxDesc l).Pairwise (fun a b => matchIdx b ≤ matchIdx a) := by
  induction l with
  | nil => simp [sortByIdxDesc]
  | cons x xs ih => exact pairwise_insertByIdxDesc x _ ih

/-! ## `parser.py` / `bot.py` — mod extraction from decoded profile text -/

/-- The `ModInfo` dataclass of `src/lib/parser.py` (field `load_order` is
`int(index)` of a `\d+` group, hence a natural number). -/
structure ModInfo where
  display_name : String
  filename : String
  load_order : Nat
  source : String
deriving DecidableEq

namespace ModParser

/-- Model of `ModParser._extract_mods_from_content` (named without the leading
underscore): find all `active_mods` entries, sort them descending by numeric
index, and keep those whose stripped display name is non-empty with length
greater than 1; `load_order` is the entry's original numeric index and
`source` is `"profile"`. -/
def extract_mods_from_content (content : List Char) : List ModInfo :=
  (sortByIdxDesc (findActiveMods content)).filterMap (fun m =>
    let clean := pyStrip m.2.2
    if clean ≠ [] ∧ clean.length > 1 then
      some ⟨String.mk clean, String.mk m.2.1, digitsToNat m.1, "profile"⟩
    else none)

end ModParser

namespace BotMain

/-- Model of `parse_profile_for_mods` in `src/bot.py`: same scan and sort as
the library extractor, but it returns only the cleaned display names and
keeps an entry only when the stripped name is non-empty with length greater
than 2. -/
def parse_profile_for_mods (content : List Char) : List String :=
  (sortByIdxDesc (findActiveMods content)).filterMap (fun m =>
    let clean := pyStrip m.2.2
    if clean ≠ [] ∧ clean.length > 2 then some (String.mk clean) else none)

end BotMain

/-- C4: for every decoded profile text, the extracted records come sorted by
their numeric index in descending order, and each record's `load_order` field
is the original numeric index of its `active_mods` entry (with the filename
and display name coming from that same entry), not its rank in the output. -/
theorem extract_mods_sorted_desc_load_order_is_index (content : List Char) :
    (ModParser.extract_mods_from_content content).Pairwise
      (fun a b => b.load_order ≤ a.load_order) ∧
    (∀ m ∈ ModParser.extract_mods_from_content content,
      ∃ e ∈ findActiveMods content,
        m.load_order = digitsToNat e.1 ∧ m.filename = String.mk e.2.1 ∧
        m.display_name = String.mk (pyStrip e.2.2) ∧ m.source = "profile") := by
  constructor
  · refine List.Pairwise.filterMap _ ?_ (pairwise_sortByIdxDesc (findActiveMods content))
    intro a b hab x hx y hy
    simp only [Option.mem_def] at hx hy
    split at hx
    · split at hy
      · injection hx with hx
        injection hy with hy
        subst hx
        subst hy
        simpa [matchIdx] using hab
      · exact Option.noConfusion hy
    · exact Option.noConfusion hx
  · intro m hm
    rw [ModParser.extract_mods_from_content, List.mem_filterMap] at hm
    obtain ⟨e, he, hfe⟩ := hm
    refine ⟨e, (mem_sortByIdxDesc e _).mp he, ?_⟩
    simp only at hfe
    split at hfe
    · injection hfe with hfe
      subst hfe
      exact ⟨rfl, rfl, rfl, rfl⟩
    · exact Option.noConfusion hfe

/-- C4 witness: the theorem applied to the concrete content with entries at
indices 0, 2, 1: the output is index 2, then 1, then 0, and the record for
entry 2 carries `load_order = 2`. -/
theorem extract_mods_sorted_desc_load_order_is_index_witness :
    (ModParser.extract_mods_from_content ("active_mods[0]: \"mod_a|Alpha Mod\"\nactive_mods[2]: \"mod_c|Charlie\"\nactive_mods[1]: \"mod_b|Bravo\"").data).Pairwise
      (fun a b => b.load_order ≤ a.load_order) ∧
    ∃ e ∈ findActiveMods ("active_mods[0]: \"mod_a|Alpha Mod\"\nactive_mods[2]: \"mod_c|Charlie\"\nactive_mods[1]: \"mod_b|Bravo\"").data,
      (ModInfo.mk "Charlie" "mod_c" 2 "profile").load_order = digitsToNat e.1 ∧
      (ModInfo.mk "Charlie" "mod_c" 2 "profile").filename = String.mk e.2.1 ∧
      (ModInfo.mk "Charlie" "mod_c" 2 "profile").display_name = String.mk (pyStrip e.2.2) ∧
      (ModInfo.mk "Charlie" "mod_c" 2 "profile").source = "profile" := by
  have h := extract_mods_sorted_desc_load_order_is_index
    ("active_mods[0]: \"mod_a|Alpha Mod\"\nactive_mods[2]: \"mod_c|Charlie\"\nactive_mods[1]: \"mod_b|Bravo\"").data
  exact ⟨h.1, h.2 (ModInfo.mk "Charlie" "mod_c" 2 "profile") (by decide)⟩

/-- C3 counterexample: the library extractor `_extract_mods_from_content`
keeps a display name of trimmed length 2 (its guard is `len(clean_name) > 1`,
not `> 2`): the entry with display-name portion `"ab"` survives. -/
theorem extract_mods_keeps_length_two_name :
    ModParser.extract_mods_from_content ("active_mods[0]: \"id|ab\"").data =
      [ModInfo.mk "ab" "id" 0 "profile"] ∧
    ("ab" : String).length = 2 := by
  exact ⟨by decide, by decide⟩

/-- Amended C3: the two extractors filter differently.  The library extractor
(`lib/parser.py`) discards exactly the entries whose trimmed display name is
empty or of length 1 — so a length-2 name such as `"ab"` is kept — while the
`bot.py` extractor discards trimmed display names of length ≤ 2 — so `"ab"`
is dropped and `"abc"` is kept.  Every surviving record's name is non-empty
of length ≥ 2 (library) resp. ≥ 3 (`bot.py`), and conversely every matched
entry whose trimmed name reaches the threshold survives. -/
theorem extractor_display_name_filters (content : List Char) :
    (∀ m ∈ ModParser.extract_mods_from_content content, 2 ≤ m.display_name.length) ∧
    (∀ s ∈ BotMain.parse_profile_for_mods content, 3 ≤ s.length) ∧
    (∀ e ∈ findActiveMods content, 2 ≤ (pyStrip e.2.2).length →
      ∃ m ∈ ModParser.extract_mods_from_content content,
        m.display_name = String.mk (pyStrip e.2.2) ∧ m.load_order = digitsToNat e.1) ∧
    (∀ e ∈ findActiveMods content, 3 ≤ (pyStrip e.2.2).length →
      String.mk (pyStrip e.2.2) ∈ BotMain.parse_profile_for_mods content) := by
  refine ⟨?_, ?_, ?_, ?_⟩
  · intro m hm
    rw [ModParser.extract_mods_from_content, List.mem_filterMap] at hm
    obtain ⟨e, _, hfe⟩ := hm
    simp only at hfe
    split at hfe
    · rename_i hcond
      injection hfe with hfe
      subst hfe
      simp only [String.length_mk]
      rcases hcond with ⟨hne, hlen⟩
      omega
    · exact Option.noConfusion hfe
  · intro s hs
    rw [BotMain.parse_profile_for_mods, List.mem_filterMap] at hs
    obtain ⟨e, _, hfe⟩ := hs
    simp only at hfe
    split at hfe
    · rename_i hcond
      injection hfe with hfe
      subst hfe
      simp only [String.length_mk]
      omega
    · exact Option.noConfusion hfe
  · intro e he hlen
    rw [ModParser.extract_mods_from_content]
    refine ⟨⟨String.mk (pyStrip e.2.2), String.mk e.2.1, digitsToNat e.1, "profile"⟩, ?_, rfl, rfl⟩
    rw [List.mem_filterMap]
    refine ⟨e, (mem_sortByIdxDesc e _).mpr he, ?_⟩
    have hne : pyStrip e.2.2 ≠ [] := by
      intro hnil
      rw [hnil] at hlen
      simp at hlen
    simp only
    rw [if_pos ⟨hne, by omega⟩]
  · intro e he hlen
    rw [BotMain.parse_profile_for_mods, List.mem_filterMap]
    refine ⟨e, (mem_sortByIdxDesc e _).mpr he, ?_⟩
    have hne : pyStrip e.2.2 ≠ [] := by
      intro hnil
      rw [hnil] at hlen
      simp at hlen
    simp only
    rw [if_pos ⟨hne, by omega⟩]

/-- C3 witness: the amended statement evaluated concretely — `"ab"`
(length 2) is kept by the library extractor, and on a content whose entry
name is `"abc"` (length 3) the `bot.py` extractor keeps it. -/
theorem extractor_display_name_filters_witness :
    (∃ m ∈ ModParser.extract_mods_from_content ("active_mods[0]: \"id|ab\"").data,
      m.display_name = String.mk (pyStrip ("ab").data) ∧
      m.load_order = digitsToNat ("0").data) ∧
    String.mk (pyStrip ("abc").data) ∈
      BotMain.parse_profile_for_mods ("active_mods[0]: \"id|abc\"").data := by
  constructor
  · exact (extractor_display_name_filters ("active_mods[0]: \"id|ab\"").data).2.2.1
      (("0").data, ("id").data, ("ab").data) (by decide) (by decide)
  · exact (extractor_display_name_filters ("active_mods[0]: \"id|abc\"").data).2.2.2
      (("0").data, ("id").data, ("abc").data) (by decide) (by decide)

/-! ## JSON serialization of the name cache

`lib/cache.py` persists `Dict[str, str]` with
`json.dumps(self._cache, indent=2, ensure_ascii=False)` and reads it back
with `json.loads`.  The encoder below reproduces `json.dumps` exactly for
string-to-string dictionaries; the decoder models `json.loads` on
string-object documents (the only shape the cache ever writes). -/

/-- Opening brace character (written via its code point). -/
def lbrace : Char := Char.ofNat 123

/-- Closing brace character (written via its code point). -/
def rbrace : Char := Char.ofNat 125

/-- Lowercase hexadecimal digit, as produced by Python's `\uXXXX` escapes. -/
def hexDigitChar (n : Nat) : Char :=
  if n < 10 then Char.ofNat (48 + n) else Char.ofNat (87 + n)

/-- `json.dumps` escaping of one character (`ensure_ascii=False`): quote,
backslash and control characters are escaped (with the short forms for
`\b \t \n \f \r`), everything else is emitted as-is. -/
def jsonEscapeChar (c : Char) : List Char :=
  if c = '"' then ['\\', '"']
  else if c = '\\' then ['\\', '\\']
  else if c.toNat = 0x08 then ['\\', 'b']
  else if c = '\t' then ['\\', 't']
  else if c = '\n' then ['\\', 'n']
  else if c.toNat = 0x0C then ['\\', 'f']
  else if c = '\r' then ['\\', 'r']
  else if c.toNat < 0x20 then
    ['\\', 'u', '0', '0', hexDigitChar (c.toNat / 16), hexDigitChar (c.toNat % 16)]
  else [c]

/-- A JSON string literal for `s`: quote, escaped characters, quote. -/
def jsonEncodeString (s : String) : List Char :=
  '"' :: (s.data.flatMap jsonEscapeChar ++ ['"'])

/-- One `"key": "value"` member at `indent=2`. -/
def jsonEncodeEntry (kv : String × String) : List Char :=
  ' ' :: ' ' :: (jsonEncodeString kv.1 ++ ':' :: ' ' :: jsonEncodeString kv.2)

/-- The members of a non-empty object, separated by `",\n"`, terminated by
`"\n}"`. -/
def jsonEncodeMembers : (String × String) → List (String × String) → List Char
  | e, [] => jsonEncodeEntry e ++ ['\n', rbrace]
  | e, e2 :: es => jsonEncodeEntry e ++ ',' :: '\n' :: jsonEncodeMembers e2 es

/-- `json.dumps(d, indent=2, ensure_ascii=False)` for a string-to-string
dictionary given as its insertion-ordered entry list: `"{}"` when empty,
otherwise one member per line at indent 2. -/
def jsonDumps : List (String × String) → List Char
  | [] => [lbrace, rbrace]
  | e :: es => lbrace :: '\n' :: jsonEncodeMembers e es

/-- The whitespace characters `json.loads` skips between tokens. -/
def jsonIsWs (c : Char) : Bool :=
  c = ' ' || c = '\t' || c = '\n' || c = '\r'

/-- Skip JSON inter-token whitespace. -/
def jsonSkipWs (cs : List Char) : List Char := cs.dropWhile jsonIsWs

/-- Value of one hexadecimal digit character, `none` otherwise. -/
def parseHexDigit (c : Char) : Option Nat :=
  if '0' ≤ c ∧ c ≤ '9' then some (c.toNat - 48)
  else if 'a' ≤ c ∧ c ≤ 'f' then some (c.toNat - 87)
  else if 'A' ≤ c ∧ c ≤ 'F' then some (c.toNat - 55)
  else none

/-- Parse the body of a JSON string literal (the opening quote already
consumed), handling the escape sequences `json.loads` accepts; returns the
decoded characters and the input after the closing quote. -/
def parseJsonString : List Char → Option (List Char × List Char)
  | [] => none
  | '"' :: rest => some ([], rest)
  | '\\' :: rest =>
    match rest with
    | [] => none
    | 'u' :: h1 :: h2 :: h3 :: h4 :: r =>
      match parseHexDigit h1, parseHexDigit h2, parseHexDigit h3, parseHexDigit h4 with
      | some n1, some n2, some n3, some n4 =>
        match parseJsonString r with
        | some (s, rest2) =>
          some (Char.ofNat (n1 * 0x1000 + n2 * 0x100 + n3 * 16 + n4) :: s, rest2)
        | none => none
      | _, _, _, _ => none
    | e :: r =>
      match
        (if e = '"' then some '"'
         else if e = '\\' then some '\\'
         else if e = '/' then some '/'
         else if e = 'b' then some (Char.ofNat 0x08)
         else if e = 'f' then some (Char.ofNat 0x0C)
         else if e = 'n' then some '\n'
         else if e = 'r' then some '\r'
         else if e = 't' then some '\t'
         else none) with
      | some d =>
        match parseJsonString r with
        | some (s, rest2) => some (d :: s, rest2)
        | none => none
      | none => none
  | c :: rest =>
    match parseJsonString rest with
    | some (s, rest2) => some (c :: s, rest2)
    | none => none

/-- Fuelled parser for the members of a JSON object of strings: repeatedly a
key string, a colon, a value string, then either a comma (more members) or
the closing brace.  Returns the members and the input after the brace. -/
def parseJsonMembersAux : Nat → List Char → Option (List (String × String) × List Char)
  | 0, _ => none
  | fuel + 1, cs =>
    match jsonSkipWs cs with
    | '"' :: r1 =>
      match parseJsonString r1 with
      | some (k, r2) =>
        (match jsonSkipWs r2 with
        | ':' :: r3 =>
          match jsonSkipWs r3 with
          | '"' :: r4 =>
            match parseJsonString r4 with
            | some (v, r5) =>
              (match jsonSkipWs r5 with
              | c :: r6 =>
                if c = ',' then
                  match parseJsonMembersAux fuel r6 with
                  | some (ms, r7) => some ((String.mk k, String.mk v) :: ms, r7)
                  | none => none
                else if c = rbrace then some ([(String.mk k, String.mk v)], r6)
                else none
              | [] => none)
            | none => none
          | _ => none
        | _ => none)
      | none => none
    | _ => none

/-- Model of `json.loads` on a document consisting of one object whose values
are all strings (the only documents the cache writes): parse the object and
require only whitespace after it.  Any other document is `none` (for the
cache such content either raises in `json.loads` or produces a non-dict
cache, which the surrounding `load` treats as a failure / invalid state). -/
def jsonLoadsStrMap (cs : List Char) : Option (List (String × String)) :=
  match jsonSkipWs cs with
  | c :: r =>
    if c = lbrace then
      match jsonSkipWs r with
      | c2 :: r2 =>
        if c2 = rbrace then
          if jsonSkipWs r2 = [] then some [] else none
        else
          match parseJsonMembersAux (r.length + 1) r with
          | some (ms, r7) => if jsonSkipWs r7 = [] then some ms else none
          | none => none
      | [] => none
    else none
  | [] => none

/-! ## `lib/cache.py` — `ModCache`

The cache owns an in-memory `Dict[str, str]` (modelled as an
insertion-ordered association list with unique keys, which is exactly a
Python dict's behaviour) and a backing file (modelled as
`Option (List Char)`: `none` when the file does not exist).  The asyncio
lock serializes the operations, so they are modelled as sequential state
transformers. -/

/-- `self._cache.get(key)`: first (and in a dict, only) binding of `key`. -/
def dictGet (m : List (String × String)) (k : String) : Option String :=
  (m.find? (fun kv => kv.1 = k)).map (fun kv => kv.2)

/-- `self._cache[key] = value`: replace the binding in place, or append. -/
def dictSet (k v : String) : List (String × String) → List (String × String)
  | [] => [(k, v)]
  | kv :: rest => if kv.1 = k then (k, v) :: rest else kv :: dictSet k v rest

/-- The observable state of a `ModCache`: the in-memory dict and the contents
of the backing cache file. -/
structure ModCacheState where
  mem : List (String × String)
  disk : Option (List Char)
deriving DecidableEq

namespace ModCache

/-- `ModCache.load`: missing file is a no-op; an empty file and any content
that does not parse reset the memory to an empty dict; otherwise the parsed
entries are loaded. -/
def load (s : ModCacheState) : ModCacheState :=
  match s.disk with
  | none => s
  | some content =>
    if content = [] then { s with mem := [] }
    else
      match jsonLoadsStrMap content with
      | some m => { s with mem := m }
      | none => { s with mem := [] }

/-- `ModCache.save`: serialize the in-memory dict over the backing file. -/
def save (s : ModCacheState) : ModCacheState :=
  { s with disk := some (jsonDumps s.mem) }

/-- `ModCache.get`. -/
def get (s : ModCacheState) (k : String) : Option String := dictGet s.mem k

/-- `ModCache.set`: write the binding and immediately persist. -/
def set (s : ModCacheState) (k v : String) : ModCacheState :=
  save { s with mem := dictSet k v s.mem }

/-- `ModCache.clear`: empty the dict and delete the backing file. -/
def clear (_ : ModCacheState) : ModCacheState :=
  { mem := [], disk := none }

/-- A freshly constructed `ModCache(cache_file)` over an existing backing
file: empty memory, same disk. -/
def restart (s : ModCacheState) : ModCacheState :=
  { mem := [], disk := s.disk }

end ModCache

/-! ### The encoder and the parser round-trip -/

theorem parseHexDigit_hexDigitChar : ∀ n < 16, parseHexDigit (hexDigitChar n) = some n := by
  decide

/-- Parsing one escaped character recovers it. -/
theorem parseJsonString_escape (c : Char) (tail rest s : List Char)
    (h : parseJsonString tail = some (s, rest)) :
    parseJsonString (jsonEscapeChar c ++ tail) = some (c :: s, rest) := by
  by_cases h1 : c = '"'
  · subst h1
    simp [jsonEscapeChar, parseJsonString, h]
  by_cases h2 : c = '\\'
  · subst h2
    simp [jsonEscapeChar, h1, parseJsonString, h]
  by_cases h3 : c.toNat = 0x08
  · have hc : c = Char.ofNat 0x08 := by
      have := Char.ofNat_toNat c
      rw [h3] at this
      exact this.symm
    subst hc
    simp [jsonEscapeChar, parseJsonString, h]
  by_cases h4 : c = '\t'
  · subst h4
    simp [jsonEscapeChar, h1, h2, h3, parseJsonString, h]
  by_cases h5 : c = '\n'
  · subst h5
    simp [jsonEscapeChar, h1, h2, h3, h4, parseJsonString, h]
  by_cases h6 : c.toNat = 0x0C
  · have hc : c = Char.ofNat 0x0C := by
      have := Char.ofNat_toNat c
      rw [h6] at this
      exact this.symm
    subst hc
    simp [jsonEscapeChar, parseJsonString, h]
  by_cases h7 : c = '\r'
  · subst h7
    simp [jsonEscapeChar, h1, h2, h3, h4, h5, h6, parseJsonString, h]
  by_cases h8 : c.toNat < 0x20
  · have hd1 : parseHexDigit (hexDigitChar (c.toNat / 16)) = some (c.toNat / 16) :=
      parseHexDigit_hexDigitChar _ (by omega)
    have hd2 : parseHexDigit (hexDigitChar (c.toNat % 16)) = some (c.toNat % 16) :=
      parseHexDigit_hexDigitChar _ (by omega)
    simp only [jsonEscapeChar, h1, h2, h3, h4, h5, h6, h7, h8, if_true, if_false,
      ite_true, ite_false, if_neg, if_pos, List.cons_append, List.nil_append]
    simp [parseJsonString, hd1, hd2, h, show parseHexDigit '0' = some 0 from by decide]
    rw [show c.toNat / 16 * 16 + c.toNat % 16 = c.toNat by omega]
    exact Char.ofNat_toNat c
  · rw [jsonEscapeChar, if_neg h1, if_neg h2, if_neg h3, if_neg h4, if_neg h5, if_neg h6,
      if_neg h7, if_neg h8, List.singleton_append, parseJsonString.eq_def]
    split
    · rename_i heq
      exact absurd heq (by simp)
    · rename_i heq
      injection heq with hc
      exact absurd hc h1
    · rename_i heq
      injection heq with hc
      exact absurd hc h2
    · rename_i c0 rest0 hne1 hne2 heq
      injection heq with hc htail
      subst hc
      subst htail
      rw [h]

/-- Parsing an encoded string body recovers the original characters and
leaves exactly the input after the closing quote. -/
theorem parseJsonString_encodeBody (l : List Char) : ∀ tail : List Char,
    parseJsonString (l.flatMap jsonEscapeChar ++ '"' :: tail) = some (l, tail) := by
  induction l with
  | nil =>
    intro tail
    simp [parseJsonString]
  | cons c l ih =>
    intro tail
    rw [List.flatMap_cons, List.append_assoc]
    exact parseJsonString_escape c _ tail l (ih tail)


theorem jsonSkipWs_cons_ws (c : Char) (h : jsonIsWs c = true) (l : List Char) :
    jsonSkipWs (c :: l) = jsonSkipWs l := by
  simp [jsonSkipWs, List.dropWhile_cons, h]

theorem jsonSkipWs_cons_not (c : Char) (h : jsonIsWs c = false) (l : List Char) :
    jsonSkipWs (c :: l) = c :: l := by
  simp [jsonSkipWs, List.dropWhile_cons, h]

theorem parseJsonMembersAux_encode : ∀ (es : List (String × String)) (fuel : Nat)
    (e : String × String), es.length < fuel →
    parseJsonMembersAux fuel ('\n' :: jsonEncodeMembers e es) = some (e :: es, []) := by
  intro es
  induction es with
  | nil =>
    intro fuel e hf
    obtain ⟨k, v⟩ := e
    cases fuel with
    | zero => omega
    | succ fuel =>
      rw [parseJsonMembersAux]
      simp only [jsonEncodeMembers, jsonEncodeEntry, jsonEncodeString,
        List.cons_append, List.append_assoc, List.nil_append]
      rw [jsonSkipWs_cons_ws _ (by decide), jsonSkipWs_cons_ws _ (by decide),
        jsonSkipWs_cons_ws _ (by decide), jsonSkipWs_cons_not _ (by decide)]
      simp only [parseJsonString_encodeBody k.data]
      rw [jsonSkipWs_cons_not _ (by decide)]
      simp only []
      rw [jsonSkipWs_cons_ws _ (by decide), jsonSkipWs_cons_not _ (by decide)]
      simp only [parseJsonString_encodeBody v.data]
      rw [jsonSkipWs_cons_ws _ (by decide), jsonSkipWs_cons_not _ (by decide)]
      simp only [if_neg (show ¬ rbrace = ',' from by decide), if_pos rfl, if_true]
  | cons e2 es ih =>
    intro fuel e hf
    obtain ⟨k, v⟩ := e
    cases fuel with
    | zero => omega
    | succ fuel =>
      rw [parseJsonMembersAux]
      simp only [jsonEncodeMembers, jsonEncodeEntry, jsonEncodeString,
        List.cons_append, List.append_assoc, List.nil_append]
      rw [jsonSkipWs_cons_ws _ (by decide), jsonSkipWs_cons_ws _ (by decide),
        jsonSkipWs_cons_ws _ (by decide), jsonSkipWs_cons_not _ (by decide)]
      simp only [parseJsonString_encodeBody k.data]
      rw [jsonSkipWs_cons_not _ (by decide)]
      simp only []
      rw [jsonSkipWs_cons_ws _ (by decide), jsonSkipWs_cons_not _ (by decide)]
      simp only [parseJsonString_encodeBody v.data]
      rw [jsonSkipWs_cons_not _ (by decide)]
      simp only [if_pos rfl, if_true]
      rw [ih fuel e2 (by simpa using hf)]


/-- A non-empty members block is longer than its number of entries, so the
fuel `jsonLoadsStrMap` passes is always sufficient. -/
theorem jsonEncodeMembers_length (es : List (String × String)) :
    ∀ e : String × String, es.length < (jsonEncodeMembers e es).length := by
  induction es with
  | nil =>
    intro e
    simp [jsonEncodeMembers]
  | cons e2 es ih =>
    intro e
    have := ih e2
    simp [jsonEncodeMembers, jsonEncodeEntry]
    omega

/-- The members block starts (after whitespace) with the opening quote of the
first key. -/
theorem jsonSkipWs_encodeMembers (k v : String) (es : List (String × String)) :
    ∃ r, jsonSkipWs (jsonEncodeMembers (k, v) es) = '"' :: r := by
  cases es with
  | nil =>
    simp only [jsonEncodeMembers, jsonEncodeEntry, jsonEncodeString,
      List.cons_append, List.append_assoc, List.nil_append]
    rw [jsonSkipWs_cons_ws _ (by decide), jsonSkipWs_cons_ws _ (by decide),
      jsonSkipWs_cons_not _ (by decide)]
    exact ⟨_, rfl⟩
  | cons e2 es =>
    simp only [jsonEncodeMembers, jsonEncodeEntry, jsonEncodeString,
      List.cons_append, List.append_assoc, List.nil_append]
    rw [jsonSkipWs_cons_ws _ (by decide), jsonSkipWs_cons_ws _ (by decide),
      jsonSkipWs_cons_not _ (by decide)]
    exact ⟨_, rfl⟩

/-- `json.loads` recovers exactly the dictionary that `json.dumps` wrote. -/
theorem jsonLoads_jsonDumps (m : List (String × String)) :
    jsonLoadsStrMap (jsonDumps m) = some m := by
  cases m with
  | nil => decide
  | cons e es =>
    obtain ⟨k, v⟩ := e
    rw [jsonDumps, jsonLoadsStrMap]
    have hm := parseJsonMembersAux_encode es
      (('\n' :: jsonEncodeMembers (k, v) es).length + 1) (k, v)
      (by have := jsonEncodeMembers_length es (k, v); simp only [List.length_cons]; omega)
    obtain ⟨r, hr⟩ := jsonSkipWs_encodeMembers k v es
    simp only [List.length_cons] at hm
    simp [jsonSkipWs_cons_not lbrace (by decide), jsonSkipWs_cons_ws '\n' (by decide),
      hr, hm, show ¬ ('"' = rbrace) from by decide,
      show jsonSkipWs ([] : List Char) = [] from rfl]


/-- Setting a key makes it immediately readable. -/
theorem dictGet_dictSet (m : List (String × String)) (k v : String) :
    dictGet (dictSet k v m) k = some v := by
  induction m with
  | nil => simp [dictGet, dictSet, List.find?]
  | cons kv rest ih =>
    by_cases h : kv.1 = k
    · simp [dictSet, h, dictGet, List.find?]
    · simp only [dictSet, if_neg h]
      simpa [dictGet, List.find?_cons, h] using ih

/-- C7: `set(k, v)` followed by `get(k)` returns `v`, and after constructing
a fresh cache over the same backing file and loading it, `get(k)` still
returns `v`: the write is persisted through the JSON serialization and
survives a restart. -/
theorem cache_set_get_persistence (s : ModCacheState) (k v : String) :
    ModCache.get (ModCache.set s k v) k = some v ∧
    ModCache.get (ModCache.load (ModCache.restart (ModCache.set s k v))) k = some v := by
  constructor
  · exact dictGet_dictSet s.mem k v
  · show ModCache.get (ModCache.load ⟨[], some (jsonDumps (dictSet k v s.mem))⟩) k = some v
    rw [ModCache.load]
    simp only
    rw [if_neg (by
      cases hd : dictSet k v s.mem with
      | nil =>
        have := dictGet_dictSet s.mem k v
        rw [hd] at this
        simp [dictGet] at this
      | cons e es => simp [jsonDumps]), jsonLoads_jsonDumps]
    exact dictGet_dictSet s.mem k v


/-! ## `parser.py` — display-name resolution for folder-scan mods

`_get_mod_display_name` resolves a `.scs` filename through: cache lookup,
embedded-manifest name, Steam workshop lookup, and finally the deterministic
`_clean_filename` heuristic; every resolved name is written back through
`ModCache.set`.  The manifest and network lookups are external effects and
enter the model as an environment; `_clean_filename` is pure and modelled in
full (for ASCII case mapping, which covers `.scs` filenames). -/

/-- Python `str.title()` (ASCII): uppercase a letter that follows a
non-letter, lowercase a letter that follows a letter. -/
def pyTitleAux : Bool → List Char → List Char
  | _, [] => []
  | prevAlpha, c :: rest =>
    if c.isAlpha then
      (if prevAlpha then c.toLower else c.toUpper) :: pyTitleAux true rest
    else c :: pyTitleAux false rest

/-- Python `str.title()` on a character list. -/
def pyTitle (cs : List Char) : List Char := pyTitleAux false cs

/-- Python `pathlib.Path(name).stem`: drop the last extension when the last
dot is neither the first nor the last character. -/
def pyStem (cs : List Char) : List Char :=
  match ((List.range cs.length).filter (fun i => cs.get? i = some '.')).getLast? with
  | some i => if 0 < i ∧ i < cs.length - 1 then cs.take i else cs
  | none => cs

/-- Python `str.split()` with no argument: words separated by whitespace
runs, with no empty words. -/
def pySplitWs (cs : List Char) : List (List Char) :=
  (cs.splitOnP pyIsSpace).filter (fun w => w ≠ [])

/-- The function words `_clean_filename` keeps lowercase. -/
def cleanFunctionWords : List (List Char) :=
  ["v".data, "by".data, "for".data, "and".data, "the".data, "of".data,
   "to".data, "in".data, "on".data, "at".data]

/-- The version-marker test of `_clean_filename`: the word starts with `v`,
has length > 1, and after removing dots and underscores the remainder is a
non-empty digit string (Python `"".isdigit()` is false). -/
def isVersionWord : List Char → Bool
  | 'v' :: c :: rest =>
    let t := (c :: rest).filter (fun c => ¬ (c = '.' ∨ c = '_'))
    !t.isEmpty && t.all Char.isDigit
  | _ => false

/-- Per-word step of `ModParser._clean_filename`. -/
def cleanWord (word : List Char) : List Char :=
  let lw := word.map Char.toLower
  if lw ∈ cleanFunctionWords then lw
  else if isVersionWord word then
    word.map Char.toUpper
  else if "promods".data.isPrefixOf lw then
    if 'v' ∈ lw then
      let parts := word.splitOn 'v'
      if parts.length > 1 then
        "ProMods ".data ++ pyTitle ((parts.headI).drop 7) ++ " V".data ++ parts.getI 1
      else pyTitle word
    else pyTitle word
  else pyTitle word

/-- Model of `ModParser._clean_filename` (named without the leading
underscore): strip the extension, turn underscores and hyphens into spaces,
clean each whitespace-separated word, and re-join with single spaces. -/
def clean_filename (filename : List Char) : List Char :=
  let name := (pyStem filename).map
    (fun c => if c = '_' then ' ' else if c = '-' then ' ' else c)
  let words := pySplitWs name
  List.intercalate [' '] (words.map cleanWord)

/-- Results of the two external lookups `_get_mod_display_name` may perform:
`manifest` is what `_extract_from_manifest` returns (the stripped `mod_name`
field, or `none`), `steam` is what `_lookup_steam_workshop` returns. -/
structure ResolveEnv where
  manifest : Option String
  steam : Option String

/-- Python truthiness of an optional string: `None` and `""` are falsy. -/
def optTruthy : Option String → Option String
  | some s => if s = "" then none else some s
  | none => none

namespace ModParser

/-- Model of `ModParser._get_mod_display_name` (named without the leading
underscore) as a state transformer over the cache: return the cached value
when it is truthy; otherwise take the first truthy result among the manifest
name, the Steam lookup and the `_clean_filename` fallback, writing the chosen
name through `ModCache.set` before returning it. -/
def get_mod_display_name (env : ResolveEnv) (filename : String)
    (s : ModCacheState) : String × ModCacheState :=
  match optTruthy (ModCache.get s filename) with
  | some cached => (cached, s)
  | none =>
    match optTruthy env.manifest with
    | some n => (n, ModCache.set s filename n)
    | none =>
      match optTruthy env.steam with
      | some n => (n, ModCache.set s filename n)
      | none =>
        let cleaned := String.mk (clean_filename filename.data)
        (cleaned, ModCache.set s filename cleaned)

end ModParser


/-- C6 counterexample: a key can be overwritten with no cache-clear involved.
`_clean_filename("_.scs")` is the empty string, so a first resolution with no
manifest and no Steam result caches `""` for the key `"_.scs"`; the empty
string is falsy, so a later resolution of the same key does not see it as
cached, resolves again (here the manifest now yields `"Nice Mod"`), and
overwrites the stored value — the key's value changes without any clear. -/
theorem resolution_overwrites_cached_key :
    ModCache.get ((ModParser.get_mod_display_name ⟨none, none⟩ "_.scs"
        ⟨[], none⟩).2) "_.scs" = some "" ∧
    ModCache.get ((ModParser.get_mod_display_name ⟨some "Nice Mod", none⟩ "_.scs"
        (ModParser.get_mod_display_name ⟨none, none⟩ "_.scs" ⟨[], none⟩).2).2)
      "_.scs" = some "Nice Mod" ∧
    ("" : String) ≠ "Nice Mod" := by
  exact ⟨by decide, by decide, by decide⟩

/-- Amended C6: once a key holds a *non-empty* value, every subsequent
resolution of that key returns the cached value and leaves the whole cache
state (and hence the key's value) unchanged; the overwrite in the
counterexample is only possible because `ModCache.set` replaces values
unconditionally and the truthiness test treats an empty cached string as a
miss. -/
theorem resolution_preserves_nonempty_cached (env : ResolveEnv) (filename : String)
    (s : ModCacheState) (v : String) (hv : v ≠ "")
    (h : ModCache.get s filename = some v) :
    ModParser.get_mod_display_name env filename s = (v, s) := by
  rw [ModParser.get_mod_display_name, h, optTruthy, if_neg hv]

/-- C6 witness: the amended statement on a concrete cache holding
`"a.scs" ↦ "Alpha"`. -/
theorem resolution_preserves_nonempty_cached_witness :
    ModParser.get_mod_display_name ⟨some "Other", some "Another"⟩ "a.scs"
      ⟨[("a.scs", "Alpha")], none⟩ = ("Alpha", ⟨[("a.scs", "Alpha")], none⟩) :=
  resolution_preserves_nonempty_cached ⟨some "Other", some "Another"⟩ "a.scs"
    ⟨[("a.scs", "Alpha")], none⟩ "Alpha" (by decide) (by decide)


/-! ## Single-instance lock (`bot.py` `ensure_single_instance`,
`lib/bot_core.py` `SingleInstanceLock.acquire`)

The marker file is modelled as `Option (List Char)` (`none` = absent), the
process-liveness oracle (`psutil.pid_exists`) and the availability of
`psutil` as parameters, and `sys.exit(1)` as a tagged outcome. -/

/-- Outcome of an acquire attempt: `exit1` models `sys.exit(1)` (non-zero
termination), `started` means the lock was (re)written and startup proceeds. -/
inductive AcquireResult where
  | exit1
  | started
deriving DecidableEq

/-- Model of `ensure_single_instance` in `src/bot.py`.  Returns the outcome
and the resulting marker-file state.  An existing marker is read and parsed
with `int(...)`: a parse failure (`ValueError`) means a stale/invalid marker,
which is removed, after which the bot writes its own pid and starts.  A
parsed pid is checked with `psutil.pid_exists`: a live pid aborts with exit
code 1 (marker untouched); a dead pid is cleaned up and startup proceeds.
Without `psutil` the code refuses to guess and exits 1. -/
def ensure_single_instance (hasPsutil : Bool) (pidExists : Int → Bool)
    (myPid : Nat) (lockFile : Option (List Char)) :
    AcquireResult × Option (List Char) :=
  match lockFile with
  | some content =>
    match pyParseInt content with
    | some pid =>
      if hasPsutil then
        if pidExists pid then (.exit1, some content)
        else (.started, some (Nat.repr myPid).data)
      else (.exit1, some content)
    | none => (.started, some (Nat.repr myPid).data)
  | none => (.started, some (Nat.repr myPid).data)

/-- Model of `SingleInstanceLock.acquire` in `src/lib/bot_core.py`: same as
`ensure_single_instance` except that without `psutil`
(`HAS_PSUTIL and psutil.pid_exists(pid)` is false) the lock is treated as
stale rather than aborting. -/
def SingleInstanceLock.acquire (hasPsutil : Bool) (pidExists : Int → Bool)
    (myPid : Nat) (lockFile : Option (List Char)) :
    AcquireResult × Option (List Char) :=
  match lockFile with
  | some content =>
    match pyParseInt content with
    | some pid =>
      if hasPsutil && pidExists pid then (.exit1, some content)
      else (.started, some (Nat.repr myPid).data)
    | none => (.started, some (Nat.repr myPid).data)
  | none => (.started, some (Nat.repr myPid).data)

/-- C8: with the liveness check available, (1) a marker holding the decimal
id of a currently-live process makes both acquire paths terminate with a
non-zero exit, and (2) a marker with non-numeric contents is treated as
stale: it is removed and startup proceeds, the marker now holding the new
process id. -/
theorem single_instance_live_pid_exits_stale_marker_cleaned
    (pidExists : Int → Bool) (myPid : Nat) (content : List Char) :
    (∀ pid, pyParseInt content = some pid → pidExists pid = true →
      (ensure_single_instance true pidExists myPid (some content)).1 = .exit1 ∧
      (SingleInstanceLock.acquire true pidExists myPid (some content)).1 = .exit1) ∧
    (pyParseInt content = none →
      ensure_single_instance true pidExists myPid (some content) =
        (.started, some (Nat.repr myPid).data) ∧
      SingleInstanceLock.acquire true pidExists myPid (some content) =
        (.started, some (Nat.repr myPid).data)) := by
  constructor
  · intro pid hparse hlive
    constructor
    · rw [ensure_single_instance, hparse]
      simp [hlive]
    · rw [SingleInstanceLock.acquire, hparse]
      simp [hlive]
  · intro hparse
    constructor
    · rw [ensure_single_instance, hparse]
    · rw [SingleInstanceLock.acquire, hparse]

/-- C8 witness: the theorem evaluated at the live marker `"123"` (with an
oracle that reports pid 123 as alive) and at the non-numeric marker `"abc"`
for a new process with pid 7. -/
theorem single_instance_witness :
    (ensure_single_instance true (fun p => p = 123) 7 (some ("123").data)).1 = .exit1 ∧
    ensure_single_instance true (fun p => p = 123) 7 (some ("abc").data) =
      (.started, some (Nat.repr 7).data) := by
  constructor
  · exact ((single_instance_live_pid_exits_stale_marker_cleaned
      (fun p => p = 123) 7 ("123").data).1 123 (by decide) (by decide)).1
  · exact ((single_instance_live_pid_exits_stale_marker_cleaned
      (fun p => p = 123) 7 ("abc").data).2 (by decide)).1

/-! ## Chunked message sending (`bot.py` `send_chunked_message`,
`bot_core.py` `ETS2ModBot._send_chunked_message`)

Both functions run the same loop: take up to `limit` characters, prefer to
cut at the last separator (`|`, `,` or space) when it is not at position 0,
send the stripped chunk, and continue with the stripped remainder. -/

/-- Python `str.rfind(c)`: highest index of `c`, or `-1`. -/
def pyRfind (cs : List Char) (c : Char) : Int :=
  match ((List.range cs.length).filter (fun i => cs.get? i = some c)).getLast? with
  | some i => (i : Int)
  | none => -1

/-- One iteration of the chunking loop: the stripped chunk passed to
`ctx.send` and the remaining message. -/
def chunkStep (limit : Nat) (message : List Char) : List Char × List Char :=
  let chunk0 := message.take limit
  let lastSep := max (pyRfind chunk0 '|') (max (pyRfind chunk0 ',') (pyRfind chunk0 ' '))
  let chunk :=
    if 0 < lastSep ∧ lastSep < (chunk0.length : Int) then chunk0.take lastSep.toNat
    else chunk0
  (pyStrip chunk, pyStrip (message.drop chunk.length))

/-- Fuelled chunking loop: the list of chunks passed to `send`, or `none`
when the fuel is exhausted (which models non-termination of the `while`
loop). -/
def send_chunked_message_aux : Nat → Nat → List Char → Option (List (List Char))
  | 0, _, _ => none
  | fuel + 1, limit, message =>
    if message = [] then some []
    else
      let step := chunkStep limit message
      match send_chunked_message_aux fuel limit step.2 with
      | some rest => some (step.1 :: rest)
      | none => none

/-- Model of `send_chunked_message`: the loop with fuel `length + 1`, which
suffices whenever the loop terminates at all (each iteration shortens the
message by at least one character when `limit ≥ 1`). -/
def send_chunked_message (limit : Nat) (message : List Char) :
    Option (List (List Char)) :=
  send_chunked_message_aux (message.length + 1) limit message


/-- Stripping never lengthens a string. -/
theorem pyStrip_length_le (cs : List Char) : (pyStrip cs).length ≤ cs.length := by
  have h1 := (List.dropWhile_sublist (l := cs) pyIsSpace).length_le
  have h2 := (List.dropWhile_sublist (l := (cs.dropWhile pyIsSpace).reverse)
    pyIsSpace).length_le
  simp only [pyStrip, List.length_reverse]
  simp only [List.length_reverse] at h2
  omega

/-- With a positive limit, every loop iteration sends a chunk of at most
`limit` characters and strictly shortens the message. -/
theorem chunkStep_progress (limit : Nat) (message : List Char)
    (h : message ≠ []) (hl : 1 ≤ limit) :
    (chunkStep limit message).1.length ≤ limit ∧
    (chunkStep limit message).2.length < message.length := by
  have hmsg : 1 ≤ message.length := by
    cases message with
    | nil => exact absurd rfl h
    | cons c cs => simp
  simp only [chunkStep]
  set chunk0 := message.take limit with hchunk0
  have hc0len : chunk0.length = min limit message.length := by
    simp [hchunk0]
  set lastSep := max (pyRfind chunk0 '|') (max (pyRfind chunk0 ',') (pyRfind chunk0 ' '))
  by_cases hcond : 0 < lastSep ∧ lastSep < (chunk0.length : Int)
  · rw [if_pos hcond]
    have htn : 1 ≤ lastSep.toNat := by omega
    have hlen : (chunk0.take lastSep.toNat).length = min lastSep.toNat chunk0.length := by
      simp
    constructor
    · have := pyStrip_length_le (chunk0.take lastSep.toNat)
      omega
    · have h2 := pyStrip_length_le (message.drop (chunk0.take lastSep.toNat).length)
      have h3 : (message.drop (chunk0.take lastSep.toNat).length).length =
          message.length - (chunk0.take lastSep.toNat).length := by
        simp
      omega
  · rw [if_neg hcond]
    constructor
    · have := pyStrip_length_le chunk0
      omega
    · have h2 := pyStrip_length_le (message.drop chunk0.length)
      have h3 : (message.drop chunk0.length).length =
          message.length - chunk0.length := by
        simp
      omega

/-- C10 worker: fuel one greater than the message length always suffices. -/
theorem send_chunked_message_aux_total (limit : Nat) (hl : 1 ≤ limit) :
    ∀ (fuel : Nat) (message : List Char), message.length < fuel →
    ∃ chunks, send_chunked_message_aux fuel limit message = some chunks ∧
      ∀ c ∈ chunks, c.length ≤ limit := by
  intro fuel
  induction fuel with
  | zero =>
    intro message h
    omega
  | succ fuel ih =>
    intro message h
    by_cases hm : message = []
    · subst hm
      exact ⟨[], by simp [send_chunked_message_aux], by simp⟩
    · have hp := chunkStep_progress limit message hm hl
      obtain ⟨rest, hrest, hlenrest⟩ := ih (chunkStep limit message).2 (by omega)
      refine ⟨(chunkStep limit message).1 :: rest, ?_, ?_⟩
      · rw [send_chunked_message_aux, if_neg hm]
        simp only [hrest]
      · intro c hc
        rcases hc with _ | hc
        · exact hp.1
        · exact hlenrest c (by assumption)

/-- C10: for every message and every chunk limit of at least 1, the chunked
sending loop terminates — fuel equal to the message length plus one is enough
because each iteration consumes at least one character — and every chunk
passed to `send` has length at most the limit. -/
theorem send_chunked_message_terminates (limit : Nat) (message : List Char)
    (hl : 1 ≤ limit) :
    ∃ chunks, send_chunked_message limit message = some chunks ∧
      ∀ c ∈ chunks, c.length ≤ limit :=
  send_chunked_message_aux_total limit hl (message.length + 1) message (by omega)

/-- C10 witness: the theorem evaluated on a concrete message with limit 5. -/
theorem send_chunked_message_terminates_witness :
    ∃ chunks, send_chunked_message 5 ("ab cd ef").data = some chunks ∧
      ∀ c ∈ chunks, c.length ≤ 5 :=
  send_chunked_message_terminates 5 ("ab cd ef").data (by decide)


/-! ## Python string ordering and `sorted`

Python compares strings lexicographically by code point; `sorted` on strings
is the unique ascending stable order.  The built-in `String` order in Lean
does not reduce in the kernel, so the comparison is defined directly on
character lists. -/

/-- Python `<` on strings: lexicographic by code point. -/
def pyStrLt : List Char → List Char → Bool
  | [], [] => false
  | [], _ :: _ => true
  | _ :: _, [] => false
  | x :: xs, y :: ys =>
    if x.toNat < y.toNat then true
    else if x.toNat = y.toNat then pyStrLt xs ys
    else false

/-- Python `<=` on strings: lexicographic by code point. -/
def pyStrLe : List Char → List Char → Bool
  | [], _ => true
  | _ :: _, [] => false
  | x :: xs, y :: ys =>
    if x.toNat < y.toNat then true
    else if x.toNat = y.toNat then pyStrLe xs ys
    else false

theorem pyStrLe_of_lt (a : List Char) : ∀ b, pyStrLt a b = true → pyStrLe a b = true := by
  induction a with
  | nil =>
    intro b h
    cases b <;> simp [pyStrLe]
  | cons x xs ih =>
    intro b h
    cases b with
    | nil => simp [pyStrLt] at h
    | cons y ys =>
      simp only [pyStrLt] at h
      simp only [pyStrLe]
      split at h
      · rw [if_pos (by assumption)]
      · split at h
        · rw [if_neg (by assumption), if_pos (by assumption)]
          exact ih ys h
        · simp at h

theorem pyStrLe_of_not_lt (a : List Char) : ∀ b, pyStrLt a b = false → pyStrLe b a = true := by
  induction a with
  | nil =>
    intro b h
    cases b with
    | nil => rfl
    | cons y ys => simp [pyStrLt] at h
  | cons x xs ih =>
    intro b h
    cases b with
    | nil => rfl
    | cons y ys =>
      simp only [pyStrLt] at h
      simp only [pyStrLe]
      split at h
      · simp at h
      · split at h
        · rw [if_neg (by omega), if_pos (by omega)]
          exact ih ys h
        · rw [if_pos (by omega)]

theorem pyStrLe_trans (a : List Char) : ∀ b c, pyStrLe a b = true → pyStrLe b c = true →
    pyStrLe a c = true := by
  induction a with
  | nil => intro b c _ _; rfl
  | cons x xs ih =>
    intro b c hab hbc
    cases b with
    | nil => simp [pyStrLe] at hab
    | cons y ys =>
      cases c with
      | nil => simp [pyStrLe] at hbc
      | cons z zs =>
        simp only [pyStrLe] at hab hbc ⊢
        split at hab
        · split at hbc
          · rw [if_pos (by omega)]
          · split at hbc
            · rw [if_pos (by omega)]
            · simp at hbc
        · split at hab
          · split at hbc
            · rw [if_pos (by omega)]
            · split at hbc
              · rw [if_neg (by omega), if_pos (by omega)]
                exact ih ys zs hab hbc
              · simp at hbc
          · simp at hab

/-- Insert into an ascending-sorted list of strings (stable). -/
def insStr (x : String) : List String → List String
  | [] => [x]
  | y :: ys => if pyStrLt y.data x.data then y :: insStr x ys else x :: y :: ys

/-- Python `sorted` on a list of strings (ascending by code point; stable
insertion sort computes the same list as timsort). -/
def sortStrings : List String → List String
  | [] => []
  | x :: xs => insStr x (sortStrings xs)

theorem mem_insStr (a x : String) (l : List String) :
    a ∈ insStr x l ↔ a = x ∨ a ∈ l := by
  induction l with
  | nil => simp [insStr]
  | cons y ys ih =>
    by_cases h : pyStrLt y.data x.data
    · simp [insStr, h, ih]
      tauto
    · simp [insStr, h]

theorem mem_sortStrings (a : String) (l : List String) :
    a ∈ sortStrings l ↔ a ∈ l := by
  induction l with
  | nil => simp [sortStrings]
  | cons x xs ih => simp [sortStrings, mem_insStr, ih]

theorem pairwise_insStr (x : String) (l : List String)
    (h : l.Pairwise (fun a b => pyStrLe a.data b.data = true)) :
    (insStr x l).Pairwise (fun a b => pyStrLe a.data b.data = true) := by
  induction l with
  | nil => simp [insStr]
  | cons y ys ih =>
    rcases List.pairwise_cons.mp h with ⟨hy, hys⟩
    by_cases hc : pyStrLt y.data x.data
    · rw [insStr, if_pos hc]
      refine List.pairwise_cons.mpr ⟨?_, ih hys⟩
      intro z hz
      rcases (mem_insStr z x ys).mp hz with rfl | hz
      · exact pyStrLe_of_lt y.data z.data hc
      · exact hy z hz
    · rw [insStr, if_neg hc]
      have hxy : pyStrLe x.data y.data = true :=
        pyStrLe_of_not_lt y.data x.data (by simpa using hc)
      refine List.pairwise_cons.mpr ⟨?_, h⟩
      intro z hz
      rcases hz with _ | hz
      · exact hxy
      · exact pyStrLe_trans x.data y.data z.data hxy (hy z (by assumption))

theorem pairwise_sortStrings (l : List String) :
    (sortStrings l).Pairwise (fun a b => pyStrLe a.data b.data = true) := by
  induction l with
  | nil => simp [sortStrings]
  | cons x xs ih => exact pairwise_insStr x _ ih

theorem nodup_insStr (x : String) (l : List String) (hx : x ∉ l) (h : l.Nodup) :
    (insStr x l).Nodup := by
  induction l with
  | nil => simp [insStr]
  | cons y ys ih =>
    rcases List.nodup_cons.mp h with ⟨hyy, hys⟩
    by_cases hc : pyStrLt y.data x.data
    · rw [insStr, if_pos hc]
      refine List.nodup_cons.mpr ⟨?_, ih (by simp at hx; tauto) hys⟩
      rw [mem_insStr]
      push_neg
      exact ⟨by simp at hx; tauto, hyy⟩
    · rw [insStr, if_neg hc]
      refine List.nodup_cons.mpr ⟨by simpa using hx, h⟩

theorem nodup_sortStrings (l : List String) (h : l.Nodup) : (sortStrings l).Nodup := by
  induction l with
  | nil => simp [sortStrings]
  | cons x xs ih =>
    rcases List.nodup_cons.mp h with ⟨hx, hxs⟩
    exact nodup_insStr x _ (by rw [mem_sortStrings]; exact hx) (ih hxs)


/-! ## `lib/bot_core.py` — `DLCDetector`

The DLC activation patterns are a small regex fragment: case-insensitive
literals, single-character classes, and starred character classes (with
backtracking).  `reSearch` implements `re.search` existence semantics for
this fragment. -/

/-- One item of the regex fragment used by `_parse_dlc_content`. -/
inductive RItem where
  | lit : List Char → RItem
  | cls : (Char → Bool) → RItem
  | star : (Char → Bool) → RItem

/-- The total number of characters plus pattern items strictly decreases at
every step of the matcher, so this fuel bound makes the fuelled matcher
exact. -/
def matchSeqAux : Nat → List RItem → List Char → Bool
  | _, [], _ => true
  | 0, _ :: _, _ => false
  | fuel + 1, .lit l :: ps, cs =>
    match dropLitCI l cs with
    | some r => matchSeqAux fuel ps r
    | none => false
  | fuel + 1, .cls p :: ps, cs =>
    match cs with
    | c :: r => p c && matchSeqAux fuel ps r
    | [] => false
  | fuel + 1, .star p :: ps, cs =>
    matchSeqAux fuel ps cs ||
      (match cs with
       | c :: r => p c && matchSeqAux fuel (.star p :: ps) r
       | [] => false)

/-- Can the pattern match a prefix of `cs` (rest ignored)? -/
def matchSeq (pattern : List RItem) (cs : List Char) : Bool :=
  matchSeqAux (cs.length + pattern.length) pattern cs

/-- `re.search` existence: does the pattern match starting at some
position? -/
def reSearch (pattern : List RItem) : List Char → Bool
  | [] => matchSeq pattern []
  | c :: rest => matchSeq pattern (c :: rest) || reSearch pattern rest

/-- The fixed code → display-name table of major map DLC. -/
def MAJOR_MAP_DLC : List (String × String) :=
  [("east", "Going East!"), ("north", "Scandinavia"), ("fr", "Vive la France!"),
   ("it", "Italia"), ("balt", "Beyond the Baltic Sea"), ("iberia", "Iberia"),
   ("balkan_w", "West Balkans"), ("greece", "Greece")]

/-- Pattern `dlc_{code}\s*[:=]\s*[1-9]`. -/
def dlcPatternFlag (code : List Char) : List RItem :=
  [.lit ("dlc_".data ++ code), .star pyIsSpace,
   .cls (fun c => c = ':' || c = '='), .star pyIsSpace,
   .cls (fun c => '1' ≤ c && c ≤ '9')]

/-- Pattern `{code}\s*.*enabled` (`.` does not cross newlines). -/
def dlcPatternEnabled (code : List Char) : List RItem :=
  [.lit code, .star pyIsSpace, .star (fun c => c ≠ '\n'), .lit "enabled".data]

/-- Pattern `{code}\s*.*active`. -/
def dlcPatternActive (code : List Char) : List RItem :=
  [.lit code, .star pyIsSpace, .star (fun c => c ≠ '\n'), .lit "active".data]

/-- Pattern `"{code}"`. -/
def dlcPatternQuoted (code : List Char) : List RItem :=
  [.lit ('"' :: (code ++ ['"']))]

/-- Model of `DLCDetector._parse_dlc_content` (named without the leading
underscore): for each code in the table, include its name if any of the four
activation patterns matches somewhere in the content (first match wins, which
is the `break`). -/
def parse_dlc_content (content : List Char) : List String :=
  MAJOR_MAP_DLC.filterMap (fun kv =>
    let code := kv.1.data
    if reSearch (dlcPatternFlag code) content ||
        reSearch (dlcPatternEnabled code) content ||
        reSearch (dlcPatternActive code) content ||
        reSearch (dlcPatternQuoted code) content
    then some kv.2 else none)

/-- Python `pathlib` suffix: the last extension including the dot, when the
last dot is neither first nor last character. -/
def pySuffix (cs : List Char) : List Char :=
  match ((List.range cs.length).filter (fun i => cs.get? i = some '.')).getLast? with
  | some i => if 0 < i ∧ i < cs.length - 1 then cs.drop i else []
  | none => []

/-- The filesystem state the DLC detector sees: the Steam install directory
(existence flag and entries with their `is_file` status), the profile root
(existence flag and immediate subdirectories with their mtimes), and a
read-file oracle (`none` models a missing file or a read error). -/
structure DlcEnv where
  steamExists : Bool
  steamEntries : List (String × Bool)
  profileRootExists : Bool
  profileSubdirs : List (String × Nat)
  readFile : String → String → Option String

/-- Model of `DLCDetector._scan_steam_dlc` (named without the leading
underscore): files named `dlc_<code>.scs` whose code appears in the table
contribute its display name. -/
def scan_steam_dlc (entries : List (String × Bool)) : List String :=
  entries.filterMap (fun e =>
    if e.2 && ("dlc_".data.isPrefixOf e.1.data) && (pySuffix e.1.data == ".scs".data) then
      match MAJOR_MAP_DLC.find? (fun kv => kv.1.data == (pyStem e.1.data).drop 4) with
      | some kv => some kv.2
      | none => none
    else none)

/-- Python `max(candidates, key=...)`: the first element attaining the
maximal key. -/
def pickLatestSubdir (d : String × Nat) (ds : List (String × Nat)) : String × Nat :=
  ds.foldl (fun best q => if q.2 > best.2 then q else best) d

/-- Model of `DLCDetector._scan_profile_dlc` (named without the leading
underscore): pick the most recently modified subdirectory of the profile root
(no validity filtering), read the three candidate files in it, collect the
activation matches, and de-duplicate (`list(set(...))`; Python's set order is
arbitrary, but the caller sorts, so only membership is observable). -/
def scan_profile_dlc (env : DlcEnv) : List String :=
  if env.profileRootExists then
    match env.profileSubdirs with
    | [] => []
    | d :: ds =>
      let latest := pickLatestSubdir d ds
      (((["profile.sii", "config.cfg", "config_local.cfg"].filterMap
          (fun fn => env.readFile latest.1 fn)).flatMap
        (fun c => parse_dlc_content c.data))).dedup
  else []

namespace DLCDetector

/-- Model of `DLCDetector.get_active_dlc`: union the Steam-directory scan
(when the directory exists) with the profile scan, de-duplicate through the
set, and return the names sorted. -/
def get_active_dlc (env : DlcEnv) : List String :=
  let fromSteam := if env.steamExists then scan_steam_dlc env.steamEntries else []
  sortStrings ((fromSteam ++ scan_profile_dlc env).dedup)

end DLCDetector

/-- C9: for every installation-root and profile-root state, the DLC query
returns exactly the union of the install-directory scan and the profile-file
scan — a name is in the result iff one of the two sources found it — with no
duplicates, sorted ascending by name. -/
theorem get_active_dlc_union_dedup_sorted (env : DlcEnv) :
    (∀ n : String, n ∈ DLCDetector.get_active_dlc env ↔
      (env.steamExists = true ∧ n ∈ scan_steam_dlc env.steamEntries) ∨
        n ∈ scan_profile_dlc env) ∧
    (DLCDetector.get_active_dlc env).Pairwise
      (fun a b => pyStrLe a.data b.data = true) ∧
    (DLCDetector.get_active_dlc env).Nodup := by
  refine ⟨?_, ?_, ?_⟩
  · intro n
    rw [DLCDetector.get_active_dlc]
    simp only [mem_sortStrings, List.mem_dedup, List.mem_append]
    by_cases h : env.steamExists <;> simp [h]
  · exact pairwise_sortStrings _
  · exact nodup_sortStrings _ (List.nodup_dedup _)


/-! ## `lib/parser.py` — profile discovery, selection and the query facade

`_find_profiles` walks the qualifying profile containers and yields one
`ProfileInfo` per subdirectory that contains a `profile.sii`.  The filesystem
is modelled as the list of discovered subdirectories in encounter order, each
carrying what the filesystem would answer: whether `profile.sii` exists, its
mtime, and what `SIIDecryptor.decrypt_file` returns for it.  The
hex-decoding of the directory name into `display_name`
(`_hex_to_readable_name`) is carried as given data: no claim depends on it. -/

/-- One discovered profile subdirectory as the filesystem presents it. -/
structure ProfileDirState where
  displayName : String
  parentDir : String
  hasSii : Bool
  mtime : Nat
  decrypted : Option String
deriving DecidableEq

/-- The `ProfileInfo` dataclass of `src/lib/parser.py` (without the `path`
field, which only serves to re-read the file). -/
structure ProfileInfo where
  display_name : String
  mods_count : Int
  timestamp : Nat
  parent_dir : String
deriving DecidableEq

/-- Python substring containment (`"needle" in line`). -/
def containsSub (needle : List Char) : List Char → Bool
  | [] => needle.isEmpty
  | c :: rest => needle.isPrefixOf (c :: rest) || containsSub needle rest

/-- The count-parsing loop of `_analyze_profile`: scan the lines for one
containing `"active_mods:"` (and a colon), take the text after the first
colon, and parse it with `int(...)`; the first line that parses wins,
lines that fail to parse are skipped, and no match means 0. -/
def parseModsCount (content : List Char) : Int :=
  go (pySplitlines content)
where
  go : List (List Char) → Int
    | [] => 0
    | line :: rest =>
      if containsSub ("active_mods:".data) line && line.contains ':' then
        match pyParseInt ((line.dropWhile (fun c => c ≠ ':')).drop 1) with
        | some n => n
        | none => go rest
      else go rest

namespace ModParser

/-- Model of `ModParser._analyze_profile` (named without the leading
underscore): `none` when the subdirectory has no `profile.sii`; otherwise a
`ProfileInfo` whose `mods_count` comes from the decoded content (0 when the
decode failed or returned an empty/falsy string), paired with the directory
state so the caller can re-read the file. -/
def analyze_profile (d : ProfileDirState) : Option (ProfileInfo × ProfileDirState) :=
  if d.hasSii then
    some (⟨d.displayName,
      (match d.decrypted with
       | some c => if c ≠ "" then parseModsCount c.data else 0
       | none => 0),
      d.mtime, d.parentDir⟩, d)
  else none

/-- Model of `ModParser._find_profiles`: analyze every discovered
subdirectory, keeping the valid ones in encounter order. -/
def find_profiles (dirs : List ProfileDirState) :
    List (ProfileInfo × ProfileDirState) :=
  dirs.filterMap analyze_profile

/-- Python `max(profiles, key=lambda p: p.timestamp)`: first maximal wins. -/
def pickLatestProfile (p : ProfileInfo × ProfileDirState)
    (ps : List (ProfileInfo × ProfileDirState)) : ProfileInfo × ProfileDirState :=
  ps.foldl (fun best q => if q.1.timestamp > best.1.timestamp then q else best) p

/-- Model of `ModParser._parse_from_profile` (named without the leading
underscore): no candidates → empty; otherwise pick the most recent candidate;
a self-reported count of 0 → empty (no other candidate is consulted);
otherwise re-read and decode its `profile.sii` and extract the mods. -/
def parse_from_profile (dirs : List ProfileDirState) : List ModInfo :=
  match find_profiles dirs with
  | [] => []
  | p :: ps =>
    let latest := pickLatestProfile p ps
    if latest.1.mods_count = 0 then []
    else if latest.2.hasSii then
      match latest.2.decrypted with
      | some c => if c ≠ "" then extract_mods_from_content c.data else []
      | none => []
    else []

/-- Model of `ModParser._parse_from_folder` (named without the leading
underscore): `none` models a missing mods folder; otherwise the `.scs` files
(case-insensitive extension), sorted alphabetically, each resolved to a
display name (the cache/manifest/network resolution is the `resolve`
oracle), with `load_order` equal to the position in this enumeration. -/
def parse_from_folder (folder : Option (List (String × Bool)))
    (resolve : String → String) : List ModInfo :=
  match folder with
  | none => []
  | some entries =>
    let scs := (entries.filter
      (fun e => e.2 && ((pySuffix e.1.data).map Char.toLower == ".scs".data))).map
      (fun e => e.1)
    (sortStrings scs).enum.map
      (fun p => ⟨resolve p.2, p.2, p.1, "folder"⟩)

/-- Model of `ModParser.get_active_mods`: profile-based parsing first; its
result is returned when non-empty, otherwise the folder scan runs. -/
def get_active_mods (dirs : List ProfileDirState)
    (folder : Option (List (String × Bool))) (resolve : String → String) :
    List ModInfo :=
  let mods := parse_from_profile dirs
  if mods ≠ [] then mods else parse_from_folder folder resolve

end ModParser


/-- C1 counterexample: when the most recent valid profile self-reports 0
mods, `_parse_from_profile` returns the empty list, but `get_active_mods`
then runs the folder-scan fallback — so with one `.scs` file in the mod
folder the query's mod list is *not* empty, contradicting the claim as
stated. -/
theorem get_active_mods_zero_count_not_always_empty :
    ModParser.parse_from_profile
      [⟨"New", "profiles", true, 10, some "active_mods: 0\n"⟩] = [] ∧
    (ModParser.analyze_profile
        ⟨"New", "profiles", true, 10, some "active_mods: 0\n"⟩).map
      (fun p => p.1.mods_count) = some 0 ∧
    ModParser.get_active_mods
      [⟨"New", "profiles", true, 10, some "active_mods: 0\n"⟩]
      (some [("zz.scs", true)]) (fun s => s) =
      [⟨"zz.scs", "zz.scs", 0, "folder"⟩] := by
  exact ⟨by decide, by decide, by decide⟩

/-- Amended C1: if the most recently modified valid candidate self-reports a
count of 0, profile-based discovery returns the empty list — in particular no
older profile with a nonzero count is consulted — and `get_active_mods` then
equals the folder-scan fallback, so the query's mod list is empty exactly
when the folder scan yields nothing. -/
theorem zero_count_latest_profile_no_profile_mods (dirs : List ProfileDirState)
    (folder : Option (List (String × Bool))) (resolve : String → String)
    (p : ProfileInfo × ProfileDirState) (ps : List (ProfileInfo × ProfileDirState))
    (hf : ModParser.find_profiles dirs = p :: ps)
    (hzero : (ModParser.pickLatestProfile p ps).1.mods_count = 0) :
    ModParser.parse_from_profile dirs = [] ∧
    ModParser.get_active_mods dirs folder resolve =
      ModParser.parse_from_folder folder resolve := by
  have h1 : ModParser.parse_from_profile dirs = [] := by
    rw [ModParser.parse_from_profile, hf]
    simp [hzero]
  refine ⟨h1, ?_⟩
  rw [ModParser.get_active_mods, h1]
  simp

/-- C1 witness: the amended statement on a state with a zero-count most
recent profile, an older profile that has one mod, and an empty mod folder:
profile parsing is empty and the query falls through to the (empty) folder
scan, never to the older profile. -/
theorem zero_count_latest_profile_witness :
    ModParser.parse_from_profile
      [⟨"Old", "profiles", true, 5,
          some "active_mods: 1\nactive_mods[0]: \"m|Name\"\n"⟩,
        ⟨"New", "profiles", true, 10, some "active_mods: 0\n"⟩] = [] ∧
    ModParser.get_active_mods
      [⟨"Old", "profiles", true, 5,
          some "active_mods: 1\nactive_mods[0]: \"m|Name\"\n"⟩,
        ⟨"New", "profiles", true, 10, some "active_mods: 0\n"⟩]
      (some []) (fun s => s) =
      ModParser.parse_from_folder (some []) (fun s => s) := by
  exact zero_count_latest_profile_no_profile_mods _ (some []) (fun s => s)
    (⟨"Old", 1, 5, "profiles"⟩,
      ⟨"Old", "profiles", true, 5,
        some "active_mods: 1\nactive_mods[0]: \"m|Name\"\n"⟩)
    [(⟨"New", 0, 10, "profiles"⟩,
      ⟨"New", "profiles", true, 10, some "active_mods: 0\n"⟩)]
    (by decide) (by decide)

end Ets2Bot
